import Mathlib

/-!
Shallow embedding of the expression-parser/evaluator core of the
cpp_calculator repository (src/src/calc.cpp together with
src/include/calc.hpp and src/include/string_utils.hpp).

Modelling conventions:
* Text spans (std::string_view) are modelled as `List Char`; the C locale
  character classifiers cover the ASCII range used by the program.
* C++ `double` values are modelled as exact rationals (ℚ).  Arithmetic is
  implemented with the kernel-computable `mkRat` / `Rat.divInt`
  constructions and proved equal to the standard ℚ operations below
  (`qadd_eq_add` etc.).  Deviations from IEEE 754 that no verified
  property depends on: division by zero yields 0 rather than an
  infinity, and `std::pow` with a non-integral exponent is modelled as 0.
* `std::stod` is modelled for decimal and scientific literals (the hex,
  `inf` and `nan` forms are not modelled).  `std::stod` raises
  `std::out_of_range` when the converted value falls outside the range
  of `double`; `parse_double` in the C++ catches only
  `std::invalid_argument`, so the out-of-range failure escapes.  The
  overflow threshold is the smallest magnitude that rounds to infinity,
  `2^1024 - 2^970`; the underflow threshold is the smallest normal
  `2^(-1022)`.
* Exceptions are modelled with `Except`; the C++ recursion is modelled
  with a fuel parameter (pure termination scaffolding: the top entry
  point supplies more fuel than the recursion can consume, and no
  theorem below depends on the out-of-fuel branch).
* The three transcendental built-ins (`std::sin`, `std::cos`,
  `std::sqrt`) have no rational realisation; the development is
  parametric over an arbitrary interpretation `Transc` of them, so every
  theorem holds in particular for the real functions.
* Undefined behaviour in the C++ (dereferencing the past-the-end
  iterator in `func_min`/`func_max` on an empty vector, calling `eval`
  through a null child pointer stored by `parse_function`) is modelled
  by the dedicated error values `EvalErr.emptyRange` and
  `EvalErr.nullChild`.
-/

namespace Calc

/-! ### C-locale character classifiers (ASCII) -/

/-- `std::isspace` in the C locale, over the ASCII range. -/
def isSpaceC (c : Char) : Bool :=
  c = ' ' || c = '\t' || c = '\n' || c = '\x0b' || c = '\x0c' || c = '\r'

/-- `std::isalpha` in the C locale, over the ASCII range. -/
def isAlphaC (c : Char) : Bool :=
  ('A' ≤ c && c ≤ 'Z') || ('a' ≤ c && c ≤ 'z')

/-- ASCII decimal digit. -/
def isDigitC (c : Char) : Bool :=
  '0' ≤ c && c ≤ '9'

/-! ### string_utils.hpp -/

/-- `calc::starts_with`: the first `needle.length` characters of
`haystack` equal `needle` (false when the needle is longer). -/
def starts_with : List Char → List Char → Bool
  | _, [] => true
  | [], _ :: _ => false
  | h :: hs, n :: ns => h = n && starts_with hs ns

/-- `calc::drop`: remove up to `n` characters from the front
(`List.drop` already clamps). -/
def drop_front (t : List Char) (n : Nat) : List Char :=
  List.drop n t

/-- `calc::drop_last`: remove up to `n` characters from the back. -/
def drop_last (t : List Char) (n : Nat) : List Char :=
  List.take (t.length - n) t

/-- The front loop of `calc::trim`: drop leading characters satisfying
the whitespace predicate. -/
def trimLeft : List Char → List Char
  | [] => []
  | c :: cs => if isSpaceC c then trimLeft cs else c :: cs

/-- The back loop of `calc::trim`: drop trailing characters satisfying
the whitespace predicate. -/
def trimRight : List Char → List Char
  | [] => []
  | c :: cs =>
    match trimRight cs with
    | [] => if isSpaceC c then [] else [c]
    | r => c :: r

/-- `calc::trim_whitespace`: trim the front, then the back. -/
def trim_whitespace (t : List Char) : List Char :=
  trimRight (trimLeft t)

/-! ### Parenthesis validation and simplification (calc.cpp) -/

/-- The scanning loop of `calc::valid_parens`, carrying the signed
counter. -/
def valid_parens_from (counter : Int) : List Char → Bool
  | [] => counter = 0
  | c :: rest =>
    if c = '(' then valid_parens_from (counter + 1) rest
    else if c = ')' then
      if counter - 1 < 0 then false else valid_parens_from (counter - 1) rest
    else valid_parens_from counter rest

/-- `calc::valid_parens`. -/
def valid_parens (t : List Char) : Bool :=
  valid_parens_from 0 t

/-- One tentative strip of `simplify_parens`:
`trim_whitespace(drop_last(drop(text, 1), 1))`. -/
def strip_outer (t : List Char) : List Char :=
  trim_whitespace (drop_last (drop_front t 1) 1)

/-- The stripping loop of `calc::simplify_parens`.  The fuel only bounds
the number of iterations; each iteration removes at least two
characters, so `t.length + 1` iterations always suffice. -/
def simplify_parens_aux : Nat → List Char → List Char
  | 0, t => t
  | fuel + 1, t =>
    let t1 := trim_whitespace t
    if t1.head? = some '(' && t1.getLast? = some ')' then
      if valid_parens (strip_outer t1) then simplify_parens_aux fuel (strip_outer t1)
      else t1
    else t1

/-- `calc::simplify_parens`. -/
def simplify_parens (t : List Char) : List Char :=
  simplify_parens_aux (t.length + 1) t

/-! ### Exact-rational model of `double` arithmetic -/

/-- Absolute value on ℚ without going through the lattice structure
(kernel-computable). -/
def qabs (q : ℚ) : ℚ :=
  if q.num < 0 then -q else q

/-- Addition, via the kernel-computable normalising constructor;
`qadd_eq_add` below proves it is ℚ addition. -/
def qadd (a b : ℚ) : ℚ :=
  mkRat (a.num * b.den + b.num * a.den) (a.den * b.den)

/-- Subtraction (`std::minus`). -/
def qsub (a b : ℚ) : ℚ :=
  mkRat (a.num * b.den - b.num * a.den) (a.den * b.den)

/-- Multiplication (`std::multiplies`). -/
def qmul (a b : ℚ) : ℚ :=
  mkRat (a.num * b.num) (a.den * b.den)

/-- Division (`std::divides`).  `Rat.divInt` sends a zero denominator to
0, the one spot where the model of `x / 0.0` differs from IEEE. -/
def qdiv (a b : ℚ) : ℚ :=
  Rat.divInt (a.num * b.den) (a.den * b.num)

/-- Natural-number power by iterated `qmul` (kernel-computable). -/
def qnpow (x : ℚ) : Nat → ℚ
  | 0 => 1
  | n + 1 => qmul (qnpow x n) x

/-- `binary_pow` = `std::pow`: exact for integral exponents, which is
the only case the verified properties exercise; a non-integral exponent
is modelled as 0. -/
def qpow (x y : ℚ) : ℚ :=
  if y.den = 1 then
    match y.num with
    | .ofNat n => qnpow x n
    | .negSucc n => qdiv 1 (qnpow x (n + 1))
  else 0

/-! ### double-range model for `std::stod` -/

/-- Smallest magnitude that rounds to +infinity in IEEE binary64
(`Nat.pow` is kernel-accelerated, so the bound stays computable). -/
def doubleOverflowBound : ℚ := mkRat (((2 : Nat) ^ 1024 - (2 : Nat) ^ 970 : Nat) : Int) 1

/-- Smallest normal binary64 magnitude. -/
def doubleUnderflowBound : ℚ := mkRat 1 ((2 : Nat) ^ 1022)

/-- The converted value falls out of the range of `double` (makes
`std::stod` raise `std::out_of_range`).  Stated via `Rat.blt`, the
executable strict-order test of ℚ (`bound ≤ x` iff `¬ x < bound`). -/
def doubleOutOfRange (q : ℚ) : Bool :=
  !(Rat.blt (qabs q) doubleOverflowBound) ||
    (!(q.num = 0) && Rat.blt (qabs q) doubleUnderflowBound)

/-! ### Registry types (calc.cpp) -/

/-- Interpretation of the three transcendental built-ins; the
development is parametric in it. -/
structure Transc where
  sinF : ℚ → ℚ
  cosF : ℚ → ℚ
  sqrtF : ℚ → ℚ

/-- The all-zero interpretation, used to instantiate closed witnesses. -/
def trivialTransc : Transc :=
  { sinF := fun _ => 0, cosF := fun _ => 0, sqrtF := fun _ => 0 }

/-- `calc::Precedence`. -/
structure Precedence where
  value : Int
  right_associative : Bool
  deriving DecidableEq

/-- `calc::left_associative`. -/
def left_associative (v : Int) : Precedence :=
  { value := v, right_associative := false }

/-- `calc::right_associative`. -/
def right_associative (v : Int) : Precedence :=
  { value := v, right_associative := true }

/-- `operator<(const Precedence&, int)` from calc.cpp. -/
def precLt (p : Precedence) (v : Int) : Bool :=
  (decide (p.value ≤ v) && !p.right_associative) ||
    (decide (p.value < v) && p.right_associative)

/-- Evaluation-time failures.  `emptyRange` and `nullChild` stand for
the undefined behaviour spots described in the header comment. -/
inductive EvalErr where
  | undefinedVariable (name : List Char)
  | outOfRange
  | emptyRange
  | nullChild
  | badFunctionCall
  | unknownSymbol
  deriving DecidableEq

/-- Parse-time failures.  `outOfFuel` is termination scaffolding and is
never produced when the fuel exceeds the input length (the top-level
entry point always supplies such fuel). -/
inductive ParseErr where
  | invalidParens
  | numberOutOfRange
  | outOfFuel
  deriving DecidableEq

/-- `calc::BinaryOpInfo`: the absent function marks the assignment
operator. -/
structure BinaryOpInfo where
  symbol : List Char
  precedence : Precedence
  func : Option (ℚ → ℚ → ℚ)

/-- `calc::is_assignment`. -/
def is_assignment (op : BinaryOpInfo) : Bool :=
  op.func.isNone

/-- `calc::UnaryOpInfo`. -/
structure UnaryOpInfo where
  symbol : List Char
  func : ℚ → ℚ

/-- `calc::FuncInfo`. -/
structure FuncInfo where
  name : List Char
  func : List ℚ → Except EvalErr ℚ

/-! ### Built-in functions (calc.cpp) -/

/-- `func_sum`: `std::accumulate` from 0.0. -/
def func_sum (args : List ℚ) : Except EvalErr ℚ :=
  .ok (args.foldl qadd 0)

/-- `func_sin`: `std::sin(args.at(0))`; `vector::at` raises
`std::out_of_range` on an empty vector. -/
def func_sin (T : Transc) (args : List ℚ) : Except EvalErr ℚ :=
  match args with
  | [] => .error .outOfRange
  | x :: _ => .ok (T.sinF x)

/-- `func_cos`. -/
def func_cos (T : Transc) (args : List ℚ) : Except EvalErr ℚ :=
  match args with
  | [] => .error .outOfRange
  | x :: _ => .ok (T.cosF x)

/-- `func_sqrt`. -/
def func_sqrt (T : Transc) (args : List ℚ) : Except EvalErr ℚ :=
  match args with
  | [] => .error .outOfRange
  | x :: _ => .ok (T.sqrtF x)

/-- `func_max`: `*std::max_element` — the first strictly-greatest
element; dereferencing the end iterator of an empty vector is undefined
behaviour, modelled as `emptyRange`. -/
def func_max (args : List ℚ) : Except EvalErr ℚ :=
  match args with
  | [] => .error .emptyRange
  | x :: rest => .ok (rest.foldl (fun acc y => if acc.blt y then y else acc) x)

/-- `func_min`: `*std::min_element`. -/
def func_min (args : List ℚ) : Except EvalErr ℚ :=
  match args with
  | [] => .error .emptyRange
  | x :: rest => .ok (rest.foldl (fun acc y => if y.blt acc then y else acc) x)

/-! ### The registries, in registration order -/

/-- The binary-operator table pushed by `Parser::Impl::Impl`, in
registration order.  `=` carries no function: it is the assignment
marker. -/
def binary_op_info_list : List BinaryOpInfo :=
  [ ⟨[ '=', '=' ], left_associative 10, some fun a b => if a = b then 1 else 0⟩,
    ⟨[ '!', '=' ], left_associative 10, some fun a b => if a = b then 0 else 1⟩,
    ⟨[ '<' ], left_associative 10, some fun a b => if a.blt b then 1 else 0⟩,
    ⟨[ '<', '=' ], left_associative 10, some fun a b => if b.blt a then 0 else 1⟩,
    ⟨[ '>' ], left_associative 10, some fun a b => if b.blt a then 1 else 0⟩,
    ⟨[ '>', '=' ], left_associative 10, some fun a b => if a.blt b then 0 else 1⟩,
    ⟨[ '+' ], left_associative 20, some qadd⟩,
    ⟨[ '-' ], left_associative 20, some qsub⟩,
    ⟨[ '*' ], left_associative 40, some qmul⟩,
    ⟨[ '/' ], left_associative 40, some qdiv⟩,
    ⟨[ '^' ], right_associative 30, some qpow⟩,
    ⟨[ '=' ], left_associative 5, none⟩ ]

/-- The unary-operator table (`unary_pos`, `std::negate`). -/
def unary_op_info_list : List UnaryOpInfo :=
  [ ⟨[ '+' ], fun x => x⟩,
    ⟨[ '-' ], fun x => -x⟩ ]

/-- The function table registered by the `Parser` constructor, in
registration order. -/
def function_info_list (T : Transc) : List FuncInfo :=
  [ ⟨[ 's', 'u', 'm' ], func_sum⟩,
    ⟨[ 's', 'i', 'n' ], func_sin T⟩,
    ⟨[ 'c', 'o', 's' ], func_cos T⟩,
    ⟨[ 'm', 'a', 'x' ], func_max⟩,
    ⟨[ 'm', 'i', 'n' ], func_min⟩,
    ⟨[ 's', 'q', 'r', 't' ], func_sqrt T⟩ ]

/-! ### Expression trees (calc.hpp / calc.cpp `expressions`) -/

/-- The expression-tree node type.  Nodes reference registry entries by
their (unique) symbol/name.  `func` children are `Option Expr` because
`Parser::Impl::parse_function` stores the raw result of the recursive
parse, which can be a null pointer. -/
inductive Expr where
  | value (v : ℚ)
  | varRef (name : List Char)
  | unaryOp (symbol : List Char) (sub : Expr)
  | binaryOp (symbol : List Char) (lhs rhs : Expr)
  | func (name : List Char) (subs : List (Option Expr))
  | assignment (name : List Char) (expr : Expr)

/-- `calc::Context`: variable environment.  `std::map` keeps keys
unique; the association list below does too (lookups agree, only the
internal ordering of distinct keys differs). -/
def Ctx := List (List Char × ℚ)

/-- Context lookup (`map::find`). -/
def lookupVar : Ctx → List Char → Option ℚ
  | [], _ => none
  | (k, v) :: rest, n => if k = n then some v else lookupVar rest n

/-- `map::insert_or_assign`. -/
def insertOrAssign : Ctx → List Char → ℚ → Ctx
  | [], n, v => [(n, v)]
  | (k, w) :: rest, n, v =>
    if k = n then (k, v) :: rest else (k, w) :: insertOrAssign rest n v

/-- First unary-operator entry with the given symbol. -/
def lookupUnary (sym : List Char) : Option UnaryOpInfo :=
  unary_op_info_list.find? (fun op => op.symbol = sym)

/-- First binary-operator entry with the given symbol. -/
def lookupBinary (sym : List Char) : Option BinaryOpInfo :=
  binary_op_info_list.find? (fun op => op.symbol = sym)

/-- First function entry with the given name (the loop in
`parse_function`). -/
def lookupFunc (T : Transc) (name : List Char) : Option FuncInfo :=
  (function_info_list T).find? (fun fi => fi.name = name)

/-! ### Evaluation (the `eval` overrides in calc.cpp)

C++ leaves the evaluation order of the two operands of
`info.func(lhs->eval(ctx), rhs->eval(ctx))` unspecified; the model fixes
left-then-right.  No verified property nests an assignment inside an
operand, so the choice is unobservable below.  The `unknownSymbol`
branches are unreachable for trees built by the parser (the C++ node
holds a direct reference into the registry). -/

mutual

/-- `Expr::eval`, threading the mutable context. -/
def evalE (T : Transc) : Expr → Ctx → Except EvalErr (ℚ × Ctx)
  | .value v, ctx => .ok (v, ctx)
  | .varRef n, ctx =>
    match lookupVar ctx n with
    | some v => .ok (v, ctx)
    | none => .error (.undefinedVariable n)
  | .unaryOp sym sub, ctx =>
    match evalE T sub ctx with
    | .error e => .error e
    | .ok (v, ctx1) =>
      match lookupUnary sym with
      | some op => .ok (op.func v, ctx1)
      | none => .error .unknownSymbol
  | .binaryOp sym l r, ctx =>
    match evalE T l ctx with
    | .error e => .error e
    | .ok (lv, ctx1) =>
      match evalE T r ctx1 with
      | .error e => .error e
      | .ok (rv, ctx2) =>
        match lookupBinary sym with
        | some op =>
          match op.func with
          | some f => .ok (f lv rv, ctx2)
          | none => .error .badFunctionCall
        | none => .error .unknownSymbol
  | .func name subs, ctx =>
    match evalSubs T subs ctx with
    | .error e => .error e
    | .ok (args, ctx1) =>
      match lookupFunc T name with
      | some fi =>
        match fi.func args with
        | .ok v => .ok (v, ctx1)
        | .error e => .error e
      | none => .error .unknownSymbol
  | .assignment n e, ctx =>
    match evalE T e ctx with
    | .error err => .error err
    | .ok (v, ctx1) =>
      let ctx2 := insertOrAssign ctx1 n v
      match lookupVar ctx2 n with
      | some w => .ok (w, ctx2)
      | none => .error .outOfRange

/-- The `std::transform` loop of `Func::eval`: evaluate the children
left to right; a null child is dereferenced, which is undefined
behaviour (`nullChild`). -/
def evalSubs (T : Transc) : List (Option Expr) → Ctx → Except EvalErr (List ℚ × Ctx)
  | [], ctx => .ok ([], ctx)
  | none :: _, _ => .error .nullChild
  | some e :: rest, ctx =>
    match evalE T e ctx with
    | .error err => .error err
    | .ok (v, ctx1) =>
      match evalSubs T rest ctx1 with
      | .error err => .error err
      | .ok (vs, ctx2) => .ok (v :: vs, ctx2)

end

/-! ### calc::parse_double (model of std::stod on decimal forms) -/

/-- Digit span: the leading run of ASCII digits and the remainder. -/
def takeDigits (t : List Char) : List Char × List Char :=
  (t.takeWhile isDigitC, t.dropWhile isDigitC)

/-- Value of a digit string. -/
def digitsToNat (ds : List Char) : Nat :=
  ds.foldl (fun n c => n * 10 + (c.toNat - '0'.toNat)) 0

/-- Assemble the rational value of a decimal literal: mantissa digits
`m`, decimal exponent `e`, sign. -/
def decValue (m : Nat) (e : Int) (neg : Bool) : ℚ :=
  let mag : ℚ :=
    if 0 ≤ e then mkRat ((m * (10 : Nat) ^ e.toNat : Nat) : Int) 1
    else mkRat (m : Int) ((10 : Nat) ^ (-e).toNat)
  if neg then -mag else mag

/-- `calc::parse_double`: interpret the whole span via `std::stod`.
Returns `none` (no match) when `std::stod` rejects the span
(`std::invalid_argument`, caught) or does not consume all of it; raises
`numberOutOfRange` when the converted value falls out of `double` range
(`std::out_of_range`, which the C++ does not catch).  The overflow test
comes before the whole-span test because `std::stod` raises before the
caller can compare sizes. -/
def parse_double (t : List Char) : Except ParseErr (Option ℚ) :=
  let t0 := t.dropWhile isSpaceC
  let signAndRest : Bool × List Char :=
    match t0 with
    | '+' :: r => (false, r)
    | '-' :: r => (true, r)
    | _ => (false, t0)
  let neg := signAndRest.1
  let ipRest := takeDigits signAndRest.2
  let ip := ipRest.1
  let fracAndRest : List Char × List Char :=
    match ipRest.2 with
    | '.' :: r => takeDigits r
    | _ => ([], ipRest.2)
  let fp := fracAndRest.1
  if ip.length + fp.length = 0 then .ok none
  else
    let expAndRest : Int × List Char :=
      match fracAndRest.2 with
      | c :: r =>
        if c = 'e' || c = 'E' then
          let se : Int × List Char :=
            match r with
            | '+' :: rr => (1, rr)
            | '-' :: rr => (-1, rr)
            | _ => (1, r)
          let ed := takeDigits se.2
          if ed.1.isEmpty then (0, fracAndRest.2)
          else (se.1 * (digitsToNat ed.1 : Int), ed.2)
        else (0, fracAndRest.2)
      | [] => (0, fracAndRest.2)
    let q := decValue (digitsToNat (ip ++ fp)) (expAndRest.1 - (fp.length : Int)) neg
    if doubleOutOfRange q then .error .numberOutOfRange
    else if expAndRest.2.isEmpty then .ok (some q)
    else .ok none

/-! ### Sub-parsers without recursion -/

/-- `calc::is_valid_variable_name`. -/
def is_valid_variable_name (t : List Char) : Bool :=
  !t.isEmpty && t.all (fun c => isAlphaC c || c = '_')

/-- `Parser::Impl::parse_number`. -/
def parse_number (t : List Char) : Except ParseErr (Option Expr) :=
  match parse_double t with
  | .error e => .error e
  | .ok none => .ok none
  | .ok (some v) => .ok (some (.value v))

/-- `Parser::Impl::parse_variable`. -/
def parse_variable (t : List Char) : Option Expr :=
  if is_valid_variable_name t then some (.varRef t) else none

/-- The inner loop of `find_binary_oper`: try every registered binary
symbol as a prefix of the remaining text `sub` at position `i`,
replacing the running best per the `Precedence` comparison. -/
def scan_ops (i : Nat) (sub : List Char) :
    Option (Nat × BinaryOpInfo) × Int → Option (Nat × BinaryOpInfo) × Int :=
  fun st =>
    binary_op_info_list.foldl
      (fun st op =>
        if starts_with sub op.symbol && precLt op.precedence st.2 then
          (some (i, op), op.precedence.value)
        else st)
      st

/-- The scanning loop of `find_binary_oper`: parenthesis depth is
updated on the current character before the depth-0 / not-first-position
check. -/
def fbo_aux : Nat → Int → List Char → Option (Nat × BinaryOpInfo) × Int →
    Option (Nat × BinaryOpInfo) × Int
  | _, _, [], st => st
  | i, depth, c :: rest, st =>
    let depth1 := if c = '(' then depth + 1 else depth
    let depth2 := if c = ')' then depth1 - 1 else depth1
    let st1 := if depth2 = 0 && !(i = 0) then scan_ops i (c :: rest) st else st
    fbo_aux (i + 1) depth2 rest st1

/-- `Parser::Impl::find_binary_oper` (the initial minimum is
`INT_MAX`). -/
def find_binary_oper (t : List Char) : Option (Nat × BinaryOpInfo) :=
  (fbo_aux 0 0 t (none, 2147483647)).1

/-- The depth-0 comma scan inside `parse_function` (a fresh counter per
argument); returns the index of the first depth-0 comma, or the length
when there is none. -/
def comma_split (i : Nat) (depth : Int) : List Char → Nat
  | [] => i
  | c :: rest =>
    let depth1 := if c = '(' then depth + 1 else depth
    let depth2 := if c = ')' then depth1 - 1 else depth1
    if c = ',' && depth2 = 0 then i
    else comma_split (i + 1) depth2 rest

/-! ### The recursive parser (fuel-indexed)

Each function consumes one unit of fuel per call so that the mutual
recursion is structural; the top-level entry point supplies
`4 * length + 16` fuel, far more than the recursion (whose depth is
bounded by the text length) can use. -/

mutual

/-- `Parser::Impl::parse_expr`: validate parens (hard failure), strip
outer parens, then try the sub-parsers in the fixed order `number`,
`binary-or-assignment`, `unary`, `function`, `variable`. -/
def parse_expr (T : Transc) : Nat → List Char → Except ParseErr (Option Expr)
  | 0, _ => .error .outOfFuel
  | fuel + 1, text =>
    if valid_parens text then
      let text1 := simplify_parens text
      match parse_number text1 with
      | .error e => .error e
      | .ok (some e) => .ok (some e)
      | .ok none =>
        match parse_binary_or_assignment T fuel text1 with
        | .error e => .error e
        | .ok (some e) => .ok (some e)
        | .ok none =>
          match parse_unary_go T fuel text1 unary_op_info_list with
          | .error e => .error e
          | .ok (some e) => .ok (some e)
          | .ok none =>
            match parse_function T fuel text1 with
            | .error e => .error e
            | .ok (some e) => .ok (some e)
            | .ok none => .ok (parse_variable text1)
    else .error .invalidParens

/-- `Parser::Impl::parse_binary_or_assignment`. -/
def parse_binary_or_assignment (T : Transc) : Nat → List Char →
    Except ParseErr (Option Expr)
  | 0, _ => .error .outOfFuel
  | fuel + 1, text =>
    match find_binary_oper text with
    | none => .ok none
    | some (i, op) =>
      match parse_expr T fuel (text.drop (i + op.symbol.length)) with
      | .error e => .error e
      | .ok none => .ok none
      | .ok (some rhs) =>
        let lhs_str := trim_whitespace (text.take i)
        if is_valid_variable_name lhs_str && is_assignment op then
          .ok (some (.assignment lhs_str rhs))
        else
          match parse_expr T fuel lhs_str with
          | .error e => .error e
          | .ok (some lhs) => .ok (some (.binaryOp op.symbol lhs rhs))
          | .ok none => .ok none

/-- The loop of `Parser::Impl::parse_unary` over the unary table: first
symbol whose removal leaves a successfully parsed remainder wins. -/
def parse_unary_go (T : Transc) : Nat → List Char → List UnaryOpInfo →
    Except ParseErr (Option Expr)
  | 0, _, _ => .error .outOfFuel
  | _ + 1, _, [] => .ok none
  | fuel + 1, text, op :: rest =>
    if starts_with text op.symbol then
      match parse_expr T fuel (text.drop op.symbol.length) with
      | .error e => .error e
      | .ok (some sub) => .ok (some (.unaryOp op.symbol sub))
      | .ok none => parse_unary_go T fuel text rest
    else parse_unary_go T fuel text rest

/-- `Parser::Impl::parse_function`: recognise `name(args)`, look the
trimmed name up in the registry, then split the simplified interior on
depth-0 commas.  Each argument slot receives the raw result of the
recursive parse — a failed argument parse is stored as a null child. -/
def parse_function (T : Transc) : Nat → List Char → Except ParseErr (Option Expr)
  | 0, _ => .error .outOfFuel
  | fuel + 1, text =>
    match text.findIdx? (· = '(') with
    | none => .ok none
    | some i =>
      if text.getLast? = some ')' then
        let name := trim_whitespace (text.take i)
        match lookupFunc T name with
        | none => .ok none
        | some info =>
          match parse_args T fuel (simplify_parens (text.drop i)) [] with
          | .error e => .error e
          | .ok subs => .ok (some (.func info.name subs))
      else .ok none

/-- The argument loop of `parse_function`: find the first depth-0 comma,
parse the piece before it, continue after it (re-simplifying parens),
until the remaining text is empty. -/
def parse_args (T : Transc) : Nat → List Char → List (Option Expr) →
    Except ParseErr (List (Option Expr))
  | 0, _, _ => .error .outOfFuel
  | fuel + 1, text, acc =>
    if text.isEmpty then .ok acc
    else
      let next := comma_split 0 0 text
      match parse_expr T fuel (text.take next) with
      | .error e => .error e
      | .ok sub =>
        parse_args T fuel (simplify_parens ((text.drop next).drop 1)) (acc ++ [sub])

end

/-! ### Top-level entry points -/

/-- Fuel supplied by the top-level entry point: strictly more than the
recursion depth, which is bounded by the text length. -/
def topFuel (t : List Char) : Nat :=
  4 * t.length + 15 + 1

/-- `Parser::operator()` on a character list. -/
def parseL (T : Transc) (t : List Char) : Except ParseErr (Option Expr) :=
  parse_expr T (topFuel t) t

/-- `Parser::operator()` on a string. -/
def parse (T : Transc) (s : String) : Except ParseErr (Option Expr) :=
  parseL T s.toList

/-- Combined parse-then-eval outcome, the shape the testable properties
talk about. -/
inductive RunResult where
  | parseFailure (e : ParseErr)
  | noMatch
  | evalFailure (e : EvalErr)
  | success (v : ℚ) (ctx : Ctx)

/-- Parse a line and evaluate the resulting tree in `ctx` (the pattern
of the host loop and of the repository's tests). -/
def run (T : Transc) (s : String) (ctx : Ctx) : RunResult :=
  match parse T s with
  | .error e => .parseFailure e
  | .ok none => .noMatch
  | .ok (some e) =>
    match evalE T e ctx with
    | .error err => .evalFailure err
    | .ok (v, ctx1) => .success v ctx1

/-! ### Specification-side predicates (used only in theorems below) -/

/-- The exit states of the `simplify_parens` loop: the result is trimmed
and cannot be stripped any further. -/
def IsSimplified (r : List Char) : Prop :=
  trim_whitespace r = r ∧
    (r.head? = some '(' → r.getLast? = some ')' →
      valid_parens (strip_outer r) = false)

/-- Parenthesis-depth contribution of one character, as tracked by the
scanning loops. -/
def parenDelta (c : Char) : Int :=
  (if c = '(' then 1 else 0) + (if c = ')' then -1 else 0)

/-- Parenthesis depth after the first `k` characters. -/
def depthPrefix (t : List Char) (k : Nat) : Int :=
  ((t.take k).map parenDelta).sum

/-- Position `j` is one the binary-operator scan examines: not the first
character, and at depth 0 after the character at `j` is accounted. -/
def SelPos (t : List Char) (j : Nat) : Prop :=
  j ≠ 0 ∧ depthPrefix t (j + 1) = 0

/-- The symbol/precedence data of the binary-operator registry (the
fields the scan consults; equality on them is decidable). -/
def binary_op_data : List (List Char × Precedence) :=
  binary_op_info_list.map (fun op => (op.symbol, op.precedence))

/-- A registered binary symbol with precedence `p` matches at position
`j` of `t`. -/
def MatchAt (t : List Char) (j : Nat) (sym : List Char) (p : Precedence) : Prop :=
  (sym, p) ∈ binary_op_data ∧ starts_with (t.drop j) sym = true

/-- What the best-candidate component of the scan state satisfies after
the first `n` positions have been examined (`minp` is the running
minimum precedence). -/
def FboBest (t : List Char) (n : Nat) (minp : Int) :
    Option (Nat × BinaryOpInfo) → Prop
  | some pr =>
    pr.1 < n ∧ SelPos t pr.1 ∧ pr.2 ∈ binary_op_info_list ∧
    starts_with (t.drop pr.1) pr.2.symbol = true ∧
    minp = pr.2.precedence.value ∧
    (∀ j sym p, pr.1 < j → j < n → SelPos t j → MatchAt t j sym p →
      precLt p minp = false) ∧
    (pr.2.precedence.right_associative = true →
      ∀ j sym p, j < pr.1 → SelPos t j → MatchAt t j sym p → minp < p.value)
  | none =>
    minp = 2147483647 ∧
    ∀ j sym p, j < n → SelPos t j → MatchAt t j sym p → False

/-- The loop invariant of `find_binary_oper`: the running minimum is at
or below the precedence value of every examined match, and the best
candidate satisfies `FboBest`. -/
def FboInv (t : List Char) (n : Nat)
    (st : Option (Nat × BinaryOpInfo) × Int) : Prop :=
  (∀ j sym p, j < n → SelPos t j → MatchAt t j sym p → st.2 ≤ p.value) ∧
  FboBest t n st.2 st.1

/-! ### Supporting lemmas about trimming and paren simplification -/

/-! ### The custom rational operations are the standard ones -/

theorem qadd_eq_add (a b : ℚ) : qadd a b = a + b := (Rat.add_def' a b).symm

theorem qsub_eq_sub (a b : ℚ) : qsub a b = a - b := (Rat.sub_def' a b).symm

theorem qmul_eq_mul (a b : ℚ) : qmul a b = a * b := by
  rw [qmul, Rat.mul_def, Rat.mkRat_def]
  simp [Nat.mul_ne_zero a.den_nz b.den_nz]

theorem qdiv_eq_div (a b : ℚ) : qdiv a b = a / b := by
  rcases eq_or_ne b 0 with rfl | hb
  · simp [qdiv]
  · have hbn : (b.num : ℚ) ≠ 0 := Int.cast_ne_zero.mpr (Rat.num_ne_zero.mpr hb)
    have had : ((a.den : ℚ)) ≠ 0 := Nat.cast_ne_zero.mpr a.den_nz
    have hbd : ((b.den : ℚ)) ≠ 0 := Nat.cast_ne_zero.mpr b.den_nz
    have ha2 : (a.num : ℚ) = a * (a.den : ℚ) :=
      (div_eq_iff had).mp (Rat.num_div_den a)
    have hb2 : (b.num : ℚ) = b * (b.den : ℚ) :=
      (div_eq_iff hbd).mp (Rat.num_div_den b)
    rw [qdiv, Rat.divInt_eq_div]
    have h1 : ((a.num * (b.den : ℤ) : ℤ) : ℚ) = (a.num : ℚ) * (b.den : ℚ) := by
      push_cast; ring
    have h2 : (((a.den : ℤ) * b.num : ℤ) : ℚ) = (a.den : ℚ) * (b.num : ℚ) := by
      push_cast; ring
    rw [h1, h2, div_eq_div_iff (mul_ne_zero had hbn) hb, ha2, hb2]
    ring

theorem trimLeft_length (l : List Char) : (trimLeft l).length ≤ l.length := by
  induction l with
  | nil => simp [trimLeft]
  | cons c cs ih =>
    by_cases h : isSpaceC c = true
    · simp only [trimLeft, h, if_true]; exact ih.trans (by simp)
    · simp [trimLeft, h]

theorem trimRight_length (l : List Char) : (trimRight l).length ≤ l.length := by
  induction l with
  | nil => simp [trimRight]
  | cons c cs ih =>
    simp only [trimRight]
    cases h : trimRight cs with
    | nil =>
      by_cases hs : isSpaceC c = true <;> simp [hs]
    | cons x xs =>
      rw [h] at ih
      simpa using ih

theorem trim_whitespace_length (l : List Char) :
    (trim_whitespace l).length ≤ l.length :=
  (trimRight_length (trimLeft l)).trans (trimLeft_length l)

theorem trimLeft_head (l : List Char) :
    trimLeft l = [] ∨ ∃ c cs, trimLeft l = c :: cs ∧ isSpaceC c = false := by
  induction l with
  | nil => exact .inl rfl
  | cons c cs ih =>
    by_cases h : isSpaceC c = true
    · simpa [trimLeft, h] using ih
    · exact .inr ⟨c, cs, by simp [trimLeft, h], by simpa using h⟩

theorem trimLeft_of_head (l : List Char) (c : Char) (h : l.head? = some c)
    (hc : isSpaceC c = false) : trimLeft l = l := by
  cases l with
  | nil => simp at h
  | cons x xs =>
    simp only [List.head?_cons, Option.some.injEq] at h
    subst h
    simp [trimLeft, hc]

theorem trimRight_head (l : List Char) :
    trimRight l = [] ∨ (trimRight l).head? = l.head? := by
  cases l with
  | nil => exact .inl rfl
  | cons c cs =>
    simp only [trimRight]
    cases h : trimRight cs with
    | nil =>
      by_cases hs : isSpaceC c = true
      · simp [hs]
      · simp [hs]
    | cons x xs => simp

theorem trimLeft_idem (l : List Char) : trimLeft (trimLeft l) = trimLeft l := by
  rcases trimLeft_head l with h | ⟨c, cs, h, hc⟩
  · rw [h]; rfl
  · rw [h]; simp [trimLeft, hc]

theorem trimRight_idem (l : List Char) : trimRight (trimRight l) = trimRight l := by
  induction l with
  | nil => rfl
  | cons c cs ih =>
    cases h : trimRight cs with
    | nil =>
      have h1 : trimRight (c :: cs) = if isSpaceC c = true then [] else [c] := by
        rw [trimRight, h]
      rw [h1]
      by_cases hs : isSpaceC c = true
      · simp [hs, trimRight]
      · simp [hs, trimRight]
    | cons x xs =>
      rw [h] at ih
      have h1 : trimRight (c :: cs) = c :: x :: xs := by
        rw [trimRight, h]
      rw [h1, trimRight, ih]

theorem trim_whitespace_idem (l : List Char) :
    trim_whitespace (trim_whitespace l) = trim_whitespace l := by
  show trimRight (trimLeft (trimRight (trimLeft l))) = trimRight (trimLeft l)
  suffices hTL : trimLeft (trimRight (trimLeft l)) = trimRight (trimLeft l) by
    rw [hTL, trimRight_idem]
  rcases trimRight_head (trimLeft l) with h0 | hh
  · rw [h0]; rfl
  · rcases trimLeft_head l with ha0 | ⟨c, cs, hac, hcs⟩
    · rw [ha0]; rfl
    · refine trimLeft_of_head _ c ?_ hcs
      rw [hh, hac]; rfl

theorem strip_outer_length (t : List Char) :
    (strip_outer t).length ≤ t.length - 2 := by
  have h1 := trim_whitespace_length (drop_last (drop_front t 1) 1)
  have h2 : (drop_last (drop_front t 1) 1).length = t.length - 1 - 1 := by
    simp [drop_last, drop_front]
  rw [strip_outer]
  omega

theorem two_le_length_of_delims (l : List Char) (h1 : l.head? = some '(')
    (h2 : l.getLast? = some ')') : 2 ≤ l.length := by
  match l with
  | [] => simp at h1
  | [x] =>
    simp only [List.head?_cons, Option.some.injEq] at h1
    simp only [List.getLast?_singleton, Option.some.injEq] at h2
    subst h1; exact absurd h2 (by decide)
  | x :: y :: rest => simp

theorem simplify_parens_aux_of_isSimplified (r : List Char) (h : IsSimplified r)
    (g : Nat) : simplify_parens_aux g r = r := by
  cases g with
  | zero => rfl
  | succ g =>
    simp only [simplify_parens_aux, h.1]
    by_cases hG : r.head? = some '(' ∧ r.getLast? = some ')'
    · have hc : (decide (r.head? = some '(') && decide (r.getLast? = some ')')) = true := by
        simp [hG.1, hG.2]
      rw [if_pos hc, if_neg]
      rw [h.2 hG.1 hG.2]
      simp
    · rw [if_neg]
      intro hcc
      exact hG (by simpa using hcc)

theorem simplify_parens_aux_isSimplified :
    ∀ (f : Nat) (t : List Char), t.length < f →
      IsSimplified (simplify_parens_aux f t) := by
  intro f
  induction f with
  | zero => intro t ht; omega
  | succ f ih =>
    intro t ht
    simp only [simplify_parens_aux]
    by_cases hG : (trim_whitespace t).head? = some '(' ∧
        (trim_whitespace t).getLast? = some ')'
    · have hc : (decide ((trim_whitespace t).head? = some '(') &&
          decide ((trim_whitespace t).getLast? = some ')')) = true := by
        simp [hG.1, hG.2]
      rw [if_pos hc]
      by_cases hV : valid_parens (strip_outer (trim_whitespace t)) = true
      · rw [if_pos hV]
        apply ih
        have h2 := two_le_length_of_delims _ hG.1 hG.2
        have h3 := strip_outer_length (trim_whitespace t)
        have h4 := trim_whitespace_length t
        omega
      · rw [if_neg hV]
        refine ⟨trim_whitespace_idem t, fun p1 p2 => ?_⟩
        simpa using hV
    · rw [if_neg]
      · refine ⟨trim_whitespace_idem t, fun p1 p2 => ?_⟩
        exact absurd ⟨p1, p2⟩ hG
      · intro hcc
        exact hG (by simpa using hcc)

theorem simplify_parens_isSimplified (t : List Char) :
    IsSimplified (simplify_parens t) :=
  simplify_parens_aux_isSimplified (t.length + 1) t (by omega)

/-! ### Context lemmas -/

theorem lookupVar_insertOrAssign (ctx : Ctx) (n : List Char) (v : ℚ) :
    lookupVar (insertOrAssign ctx n v) n = some v := by
  induction ctx with
  | nil => simp [insertOrAssign, lookupVar]
  | cons p rest ih =>
    obtain ⟨k, w⟩ := p
    by_cases h : k = n
    · simp [insertOrAssign, lookupVar, h]
    · simp [insertOrAssign, lookupVar, h, ih]

theorem lookupVar_insertOrAssign_ne (ctx : Ctx) (n m : List Char) (v : ℚ)
    (h : m ≠ n) :
    lookupVar (insertOrAssign ctx n v) m = lookupVar ctx m := by
  induction ctx with
  | nil =>
    have hnm : ¬ (n = m) := fun he => h he.symm
    simp [insertOrAssign, lookupVar, hnm]
  | cons p rest ih =>
    obtain ⟨k, w⟩ := p
    by_cases hk : k = n
    · subst hk
      have hkm : ¬ (k = m) := fun he => h he.symm
      simp [insertOrAssign, lookupVar, hkm]
    · simp [insertOrAssign, lookupVar, hk, ih]

/-! ### Decimal-literal values used in the claim statements -/

theorem q_5_3 : (5.3 : ℚ) = mkRat 53 10 := by
  rw [Rat.mkRat_eq_divInt, Rat.divInt_eq_div]; norm_num

theorem q_neg_1_1 : (-1.1 : ℚ) = mkRat (-11) 10 := by
  rw [Rat.mkRat_eq_divInt, Rat.divInt_eq_div]; norm_num

theorem q_6_72 : (6.72 : ℚ) = mkRat 168 25 := by
  rw [Rat.mkRat_eq_divInt, Rat.divInt_eq_div]; norm_num

/-! ### The binary-operator scan: general selection properties

`find_binary_oper` keeps a running best candidate and minimum
precedence; the lemmas below characterise the selected split position:
no later examined position carries a match that the `Precedence`
comparison would prefer, and a selected right-associative operator has
no earlier examined match of equal or lower precedence value. -/

theorem precLt_true_le {p : Precedence} {m : Int} (h : precLt p m = true) :
    p.value ≤ m := by
  rcases p with ⟨v, r⟩
  show v ≤ m
  cases r <;> simp [precLt] at h <;> omega

theorem precLt_true_right_lt {p : Precedence} {m : Int} (h : precLt p m = true)
    (hr : p.right_associative = true) : p.value < m := by
  rcases p with ⟨v, r⟩
  change r = true at hr
  subst hr
  show v < m
  simpa [precLt] using h

theorem precLt_false_le {p : Precedence} {m : Int} (h : precLt p m = false) :
    m ≤ p.value := by
  rcases p with ⟨v, r⟩
  show m ≤ v
  cases r <;> simp [precLt] at h <;> omega

theorem binary_op_data_symbol_ne_nil : ∀ q ∈ binary_op_data, q.1 ≠ [] := by
  decide

theorem binary_ops_precLt_max :
    ∀ op ∈ binary_op_info_list, precLt op.precedence 2147483647 = true := by
  intro op hop
  fin_cases hop <;> rfl

theorem starts_with_nil_eq (sym : List Char) (h : starts_with [] sym = true) :
    sym = [] := by
  cases sym with
  | nil => rfl
  | cons n ns => simp [starts_with] at h

theorem matchAt_lt_length {t : List Char} {j : Nat} {sym : List Char}
    {p : Precedence} (h : MatchAt t j sym p) : j < t.length := by
  rcases h with ⟨hmem, hsw⟩
  by_contra hj
  rw [List.drop_eq_nil_of_le (by omega)] at hsw
  exact binary_op_data_symbol_ne_nil _ hmem (starts_with_nil_eq _ hsw)

theorem depthPrefix_succ {t : List Char} {i : Nat} {c : Char} {rest : List Char}
    (h : t.drop i = c :: rest) :
    depthPrefix t (i + 1) = depthPrefix t i + parenDelta c := by
  rw [depthPrefix, depthPrefix, List.take_add, h]
  simp

theorem depth_step (depth : Int) (c : Char) :
    (if c = ')' then (if c = '(' then depth + 1 else depth) - 1
      else if c = '(' then depth + 1 else depth) = depth + parenDelta c := by
  by_cases h1 : c = '('
  · subst h1
    simp [parenDelta]
  · by_cases h2 : c = ')'
    · subst h2
      simp [h1, parenDelta]
      omega
    · simp [h1, h2, parenDelta]

/-- The inner per-position loop (`scan_ops` over an arbitrary suffix of
the registry): the minimum never increases, ends at or below every
matching operator's precedence value, and either nothing was replaced
(every match compared unfavourably) or the best is a matching operator
from the suffix whose value is the new minimum — strictly below the old
one when it is right-associative. -/
theorem scan_ops_go (i : Nat) (sub : List Char) :
    ∀ (ops : List BinaryOpInfo) (st : Option (Nat × BinaryOpInfo) × Int),
    (ops.foldl (fun st op =>
        if starts_with sub op.symbol && precLt op.precedence st.2 then
          (some (i, op), op.precedence.value) else st) st).2 ≤ st.2 ∧
    (∀ op ∈ ops, starts_with sub op.symbol = true →
      (ops.foldl (fun st op =>
        if starts_with sub op.symbol && precLt op.precedence st.2 then
          (some (i, op), op.precedence.value) else st) st).2 ≤
        op.precedence.value) ∧
    (((ops.foldl (fun st op =>
        if starts_with sub op.symbol && precLt op.precedence st.2 then
          (some (i, op), op.precedence.value) else st) st) = st ∧
      ∀ op ∈ ops, starts_with sub op.symbol = true →
        precLt op.precedence st.2 = false) ∨
      (∃ opX, opX ∈ ops ∧ starts_with sub opX.symbol = true ∧
        (ops.foldl (fun st op =>
          if starts_with sub op.symbol && precLt op.precedence st.2 then
            (some (i, op), op.precedence.value) else st) st).1 = some (i, opX) ∧
        (ops.foldl (fun st op =>
          if starts_with sub op.symbol && precLt op.precedence st.2 then
            (some (i, op), op.precedence.value) else st) st).2 =
          opX.precedence.value ∧
        (opX.precedence.right_associative = true →
          (ops.foldl (fun st op =>
            if starts_with sub op.symbol && precLt op.precedence st.2 then
              (some (i, op), op.precedence.value) else st) st).2 < st.2))) := by
  intro ops
  induction ops with
  | nil => exact fun st => ⟨le_refl _, by simp, .inl ⟨rfl, by simp⟩⟩
  | cons op ops ih =>
    intro st
    simp only [List.foldl_cons]
    by_cases hc : (starts_with sub op.symbol && precLt op.precedence st.2) = true
    · obtain ⟨hm, hp⟩ := Bool.and_eq_true_iff.mp hc
      rw [if_pos hc]
      obtain ⟨ih1, ih2, ih3⟩ := ih (some (i, op), op.precedence.value)
      have hle : op.precedence.value ≤ st.2 := precLt_true_le hp
      refine ⟨le_trans ih1 hle, ?_, ?_⟩
      · intro op' hop' hsw'
        rcases List.mem_cons.mp hop' with rfl | hop'
        · exact ih1
        · exact ih2 op' hop' hsw'
      · rcases ih3 with ⟨heq, _⟩ | ⟨opX, hX1, hX2, hX3, hX4, hX5⟩
        · refine .inr ⟨op, List.mem_cons_self op ops, hm, ?_, ?_, ?_⟩
          · rw [heq]
          · rw [heq]
          · intro hr
            rw [heq]
            exact precLt_true_right_lt hp hr
        · refine .inr ⟨opX, List.mem_cons_of_mem op hX1, hX2, hX3, hX4, ?_⟩
          intro hr
          exact lt_of_lt_of_le (hX5 hr) hle
    · rw [if_neg hc]
      obtain ⟨ih1, ih2, ih3⟩ := ih st
      have hnp : starts_with sub op.symbol = true →
          precLt op.precedence st.2 = false := by
        intro hm
        cases hpl : precLt op.precedence st.2
        · rfl
        · exact absurd (by simp [hm, hpl] :
            (starts_with sub op.symbol && precLt op.precedence st.2) = true) hc
      refine ⟨ih1, ?_, ?_⟩
      · intro op' hop' hsw'
        rcases List.mem_cons.mp hop' with rfl | hop'
        · exact le_trans ih1 (precLt_false_le (hnp hsw'))
        · exact ih2 op' hop' hsw'
      · rcases ih3 with ⟨heq, hrest⟩ | ⟨opX, hX1, hX2, hX3, hX4, hX5⟩
        · refine .inl ⟨heq, ?_⟩
          intro op' hop' hsw'
          rcases List.mem_cons.mp hop' with rfl | hop'
          · exact hnp hsw'
          · exact hrest op' hop' hsw'
        · exact .inr ⟨opX, List.mem_cons_of_mem op hX1, hX2, hX3, hX4, hX5⟩

/-- `scan_ops` instance of the fold lemma. -/
theorem scan_ops_spec (i : Nat) (sub : List Char)
    (st : Option (Nat × BinaryOpInfo) × Int) :
    (scan_ops i sub st).2 ≤ st.2 ∧
    (∀ op ∈ binary_op_info_list, starts_with sub op.symbol = true →
      (scan_ops i sub st).2 ≤ op.precedence.value) ∧
    ((scan_ops i sub st = st ∧
      ∀ op ∈ binary_op_info_list, starts_with sub op.symbol = true →
        precLt op.precedence st.2 = false) ∨
      (∃ opX, opX ∈ binary_op_info_list ∧ starts_with sub opX.symbol = true ∧
        (scan_ops i sub st).1 = some (i, opX) ∧
        (scan_ops i sub st).2 = opX.precedence.value ∧
        (opX.precedence.right_associative = true →
          (scan_ops i sub st).2 < st.2))) :=
  scan_ops_go i sub binary_op_info_list st

theorem fbo_aux_inv (t : List Char) :
    ∀ (rest : List Char) (i : Nat) (depth : Int)
      (st : Option (Nat × BinaryOpInfo) × Int),
      rest = t.drop i → depth = depthPrefix t i → FboInv t i st →
      FboInv t (t.length + 1) (fbo_aux i depth rest st) := by
  intro rest
  induction rest with
  | nil =>
    intro i depth st hr _hd hInv
    simp only [fbo_aux]
    have hlen : t.length ≤ i := List.drop_eq_nil_iff.mp hr.symm
    obtain ⟨hA, hB⟩ := hInv
    refine ⟨fun j sym p hj hS hM =>
      hA j sym p (lt_of_lt_of_le (matchAt_lt_length hM) hlen) hS hM, ?_⟩
    cases hst : st.1 with
    | some pr =>
      rw [hst] at hB
      simp only [FboBest] at hB ⊢
      obtain ⟨_, hSel, hmem, hsw, hval, hmid, hright⟩ := hB
      have hpr : pr.1 < t.length := by
        by_contra hge
        rw [List.drop_eq_nil_of_le (by omega)] at hsw
        have hsn := starts_with_nil_eq _ hsw
        have hne : pr.2.symbol ≠ [] := by
          have := binary_op_data_symbol_ne_nil (pr.2.symbol, pr.2.precedence)
            (List.mem_map_of_mem _ hmem)
          simpa using this
        exact hne hsn
      exact ⟨by omega, hSel, hmem, hsw, hval,
        fun j sym p hj1 _ hS hM => hmid j sym p hj1
          (lt_of_lt_of_le (matchAt_lt_length hM) hlen) hS hM, hright⟩
    | none =>
      rw [hst] at hB
      simp only [FboBest] at hB ⊢
      exact ⟨hB.1, fun j sym p _ hS hM =>
        hB.2 j sym p (lt_of_lt_of_le (matchAt_lt_length hM) hlen) hS hM⟩
  | cons c rest' ih =>
    intro i depth st hr hd hInv
    have hdrop' : t.drop (i + 1) = rest' := by
      have hdd : (t.drop i).drop 1 = t.drop (i + 1) := by
        rw [List.drop_drop]
      rw [← hdd, ← hr]
      rfl
    have hdp : depthPrefix t (i + 1) = depthPrefix t i + parenDelta c :=
      depthPrefix_succ hr.symm
    simp only [fbo_aux]
    rw [depth_step, hd, ← hdp]
    by_cases hsel : SelPos t i
    · have hcond : (decide (depthPrefix t (i + 1) = 0) && !(decide (i = 0))) = true := by
        simp [hsel.1, hsel.2]
      rw [if_pos hcond]
      apply ih (i + 1) (depthPrefix t (i + 1))
        (scan_ops i (c :: rest') st) hdrop'.symm rfl
      obtain ⟨hA, hB⟩ := hInv
      have hsub : c :: rest' = t.drop i := hr
      obtain ⟨s1, s2, s3⟩ := scan_ops_spec i (c :: rest') st
      constructor
      · intro j sym p hj hS hM
        rcases Nat.lt_succ_iff_lt_or_eq.mp hj with hj' | rfl
        · exact le_trans s1 (hA j sym p hj' hS hM)
        · obtain ⟨hmem, hsw⟩ := hM
          obtain ⟨op', hop', heq⟩ := List.mem_map.mp hmem
          have hsym : op'.symbol = sym := by
            simpa using congrArg Prod.fst heq
          have hpv : op'.precedence = p := by
            simpa using congrArg Prod.snd heq
          have hsw' : starts_with (c :: rest') op'.symbol = true := by
            rw [hsub, hsym]
            exact hsw
          have hv := s2 op' hop' hsw'
          rwa [hpv] at hv
      · rcases s3 with ⟨heq, hall⟩ | ⟨opX, hX1, hX2, hX3, hX4, hX5⟩
        · rw [heq]
          cases hst : st.1 with
          | some pr =>
            rw [hst] at hB
            simp only [FboBest] at hB ⊢
            obtain ⟨hlt, hSel, hmem, hsw, hval, hmid, hright⟩ := hB
            refine ⟨by omega, hSel, hmem, hsw, hval, ?_, hright⟩
            intro j sym p hj1 hj2 hS hM
            rcases Nat.lt_succ_iff_lt_or_eq.mp hj2 with hj' | rfl
            · exact hmid j sym p hj1 hj' hS hM
            · obtain ⟨hmem', hsw'⟩ := hM
              obtain ⟨op', hop', heq'⟩ := List.mem_map.mp hmem'
              have hsym' : op'.symbol = sym := by
                simpa using congrArg Prod.fst heq'
              have hpv' : op'.precedence = p := by
                simpa using congrArg Prod.snd heq'
              have hsw'' : starts_with (c :: rest') op'.symbol = true := by
                rw [hsub, hsym']
                exact hsw'
              have hpl := hall op' hop' hsw''
              rwa [hpv'] at hpl
          | none =>
            rw [hst] at hB
            simp only [FboBest] at hB ⊢
            refine ⟨hB.1, fun j sym p hj hS hM => ?_⟩
            rcases Nat.lt_succ_iff_lt_or_eq.mp hj with hj' | rfl
            · exact hB.2 j sym p hj' hS hM
            · obtain ⟨hmem', hsw'⟩ := hM
              obtain ⟨op', hop', heq'⟩ := List.mem_map.mp hmem'
              have hsym' : op'.symbol = sym := by
                simpa using congrArg Prod.fst heq'
              have hsw'' : starts_with (c :: rest') op'.symbol = true := by
                rw [hsub, hsym']
                exact hsw'
              have hpl := hall op' hop' hsw''
              rw [hB.1] at hpl
              exact absurd (binary_ops_precLt_max op' hop') (by simp [hpl])
        · have hswX : starts_with (t.drop i) opX.symbol = true := by
            rw [← hsub]
            exact hX2
          rw [hX3, hX4]
          simp only [FboBest]
          refine ⟨by omega, hsel, hX1, hswX, trivial, ?_, ?_⟩
          · intro j sym p hj1 hj2 _hS _hM
            omega
          · intro hrX j sym p hj hS hM
            have h5 := hX5 hrX
            rw [hX4] at h5
            exact lt_of_lt_of_le h5 (hA j sym p hj hS hM)
    · have hcond : ¬ ((decide (depthPrefix t (i + 1) = 0) && !(decide (i = 0))) = true) := by
        intro hcc
        rcases Bool.and_eq_true_iff.mp hcc with ⟨h1, h2⟩
        exact hsel ⟨by simpa using h2, of_decide_eq_true h1⟩
      rw [if_neg hcond]
      apply ih (i + 1) (depthPrefix t (i + 1)) st hdrop'.symm rfl
      obtain ⟨hA, hB⟩ := hInv
      constructor
      · intro j sym p hj hS hM
        rcases Nat.lt_succ_iff_lt_or_eq.mp hj with hj' | rfl
        · exact hA j sym p hj' hS hM
        · exact absurd hS hsel
      · cases hst : st.1 with
        | some pr =>
          rw [hst] at hB
          simp only [FboBest] at hB ⊢
          obtain ⟨hlt, hSel, hmem, hsw, hval, hmid, hright⟩ := hB
          refine ⟨by omega, hSel, hmem, hsw, hval, ?_, hright⟩
          intro j sym p hj1 hj2 hS hM
          rcases Nat.lt_succ_iff_lt_or_eq.mp hj2 with hj' | rfl
          · exact hmid j sym p hj1 hj' hS hM
          · exact absurd hS hsel
        | none =>
          rw [hst] at hB
          simp only [FboBest] at hB ⊢
          refine ⟨hB.1, fun j sym p hj hS hM => ?_⟩
          rcases Nat.lt_succ_iff_lt_or_eq.mp hj with hj' | rfl
          · exact hB.2 j sym p hj' hS hM
          · exact absurd hS hsel

/-- The selected split of `find_binary_oper`: an examined match such
that no later examined match compares favourably under the `Precedence`
rule, and — when the selected operator is right-associative — every
earlier examined match has a strictly larger precedence value. -/
theorem find_binary_oper_spec (t : List Char) (i : Nat) (op : BinaryOpInfo)
    (h : find_binary_oper t = some (i, op)) :
    SelPos t i ∧ op ∈ binary_op_info_list ∧
    starts_with (t.drop i) op.symbol = true ∧
    (∀ j sym p, i < j → SelPos t j → MatchAt t j sym p →
      precLt p op.precedence.value = false) ∧
    (op.precedence.right_associative = true →
      ∀ j sym p, j < i → SelPos t j → MatchAt t j sym p →
        op.precedence.value < p.value) := by
  have h0 : FboInv t 0 (none, 2147483647) := by
    refine ⟨fun j sym p hj => absurd hj (by omega), ?_⟩
    show FboBest t 0 2147483647 none
    simp only [FboBest]
    exact ⟨trivial, fun j sym p hj => absurd hj (by omega)⟩
  have hInv := fbo_aux_inv t t 0 0 (none, 2147483647) rfl
    (by simp [depthPrefix]) h0
  simp only [find_binary_oper] at h
  obtain ⟨hA, hB⟩ := hInv
  rw [h] at hB
  simp only [FboBest] at hB
  obtain ⟨_, hSel, hmem, hsw, hval, hmid, hright⟩ := hB
  refine ⟨hSel, hmem, hsw, ?_, ?_⟩
  · intro j sym p hij hS hM
    have hpl := hmid j sym p hij
      (by have := matchAt_lt_length hM; omega) hS hM
    rwa [hval] at hpl
  · intro hr j sym p hji hS hM
    have hlt := hright hr j sym p hji hS hM
    rwa [hval] at hlt

/-! ### The claims -/

set_option maxRecDepth 8000
set_option exponentiation.threshold 2000

/-- Claim C1: the C++ registers all six comparison operators with
1.0/0.0 semantics, but the scan in `find_binary_oper` lets the bare
assignment symbol `=` (precedence 5, lower than the comparisons' 10)
match inside `==`, `!=`, `<=`, `>=` one position into the operator; the
resulting split leaves an unparseable left side such as `1 =`, so every
comparison whose symbol contains `=` parses as no-match instead of
evaluating.  Only the single-character `<` and `>` behave as the claim
states. -/
theorem calc_c1_comparison_parsing (T : Transc) :
    run T "1 == 1" [] = .noMatch ∧
    run T "1 != 2" [] = .noMatch ∧
    run T "1 <= 2" [] = .noMatch ∧
    run T "1 >= 1" [] = .noMatch ∧
    run T "1 < 2" [] = .success 1 [] ∧
    run T "2 < 1" [] = .success 0 [] ∧
    run T "2 > 1" [] = .success 1 [] :=
  ⟨rfl, rfl, rfl, rfl, rfl, rfl, rfl⟩

/-- Claim C2: the listed well-formed arithmetic strings evaluate to the
listed values (exactly, in the rational model of `double`). -/
theorem calc_c2_arithmetic (T : Transc) :
    run T "2.1 + 3.2" [] = .success (5.3 : ℚ) [] ∧
    run T "2.1 - 3.2" [] = .success (-1.1 : ℚ) [] ∧
    run T "2.1 * 3.2" [] = .success (6.72 : ℚ) [] ∧
    run T "6.3 / 2.1" [] = .success 3 [] ∧
    run T "(2 + 3) * (3 - 1) - 1" [] = .success 9 [] ∧
    run T "2 * 10 ^ 3" [] = .success 8000 [] ∧
    run T "+(1 + 3)" [] = .success 4 [] ∧
    run T "-(1 + 3)" [] = .success (-4) [] := by
  refine ⟨?_, ?_, ?_, rfl, rfl, rfl, rfl, rfl⟩
  · rw [q_5_3]; rfl
  · rw [q_neg_1_1]; rfl
  · rw [q_6_72]; rfl

/-- Claim C3: evaluating an Assignment node evaluates the right-hand
side, inserts or overwrites the binding in the context, and returns
exactly the value now bound; concretely, `x = 5` then `x + 1` in the
same context yields 6, with the context mapping `x` to 5. -/
theorem calc_c3_assignment_eval (T : Transc) (name : List Char) (e : Expr)
    (ctx ctx1 : Ctx) (v : ℚ) (h : evalE T e ctx = .ok (v, ctx1)) :
    (evalE T (.assignment name e) ctx = .ok (v, insertOrAssign ctx1 name v) ∧
      lookupVar (insertOrAssign ctx1 name v) name = some v ∧
      ∀ m, m ≠ name →
        lookupVar (insertOrAssign ctx1 name v) m = lookupVar ctx1 m) ∧
    (run T "x = 5" [] = .success 5 [("x".toList, 5)] ∧
      run T "x + 1" [("x".toList, 5)] = .success 6 [("x".toList, 5)] ∧
      lookupVar [("x".toList, 5)] "x".toList = some 5) := by
  refine ⟨⟨?_, lookupVar_insertOrAssign ctx1 name v,
    fun m hm => lookupVar_insertOrAssign_ne ctx1 name m v hm⟩, rfl, rfl, rfl⟩
  simp only [evalE, h, lookupVar_insertOrAssign]

theorem calc_c3_assignment_eval_witness :
    (evalE trivialTransc (.assignment "y".toList (.value 2)) [] =
        .ok (2, insertOrAssign [] "y".toList 2) ∧
      lookupVar (insertOrAssign [] "y".toList 2) "y".toList = some 2 ∧
      ∀ m, m ≠ "y".toList →
        lookupVar (insertOrAssign [] "y".toList 2) m = lookupVar [] m) ∧
    (run trivialTransc "x = 5" [] = .success 5 [("x".toList, 5)] ∧
      run trivialTransc "x + 1" [("x".toList, 5)] = .success 6 [("x".toList, 5)] ∧
      lookupVar [("x".toList, 5)] "x".toList = some 5) :=
  calc_c3_assignment_eval trivialTransc "y".toList (.value 2) [] [] 2 rfl

/-- Claim C4 (counterexample): `"1e999"` has structurally valid
parentheses, yet parsing raises a hard failure — the uncaught
`std::out_of_range` from `std::stod` on an out-of-double-range literal —
refuting the claim that a hard failure occurs only for invalid
parentheses and that out-of-range numeric spans yield no-match. -/
theorem calc_c4_counterexample :
    valid_parens "1e999".toList = true ∧
    parse trivialTransc "1e999" = .error .numberOutOfRange :=
  ⟨rfl, rfl⟩

/-- Claim C4 (amended): parsing raises `invalidParens` for every string
with structurally invalid parentheses; a string with valid parentheses
can still raise a hard failure, namely the uncaught out-of-range
failure for a numeric literal outside `double` range (`"1e999"`); other
unrecognized inputs — `""`, `"   "`, a non-numeric span `"@"` — yield
the no-match result rather than a raised failure. -/
theorem calc_c4_amended (T : Transc) (s : String)
    (h : valid_parens s.toList = false) :
    parse T s = .error .invalidParens ∧
    parse T "1e999" = .error .numberOutOfRange ∧
    run T "" [] = .noMatch ∧
    run T "   " [] = .noMatch ∧
    run T "@" [] = .noMatch := by
  refine ⟨?_, rfl, rfl, rfl, rfl⟩
  show parse_expr T (4 * s.toList.length + 15 + 1) s.toList = .error .invalidParens
  rw [parse_expr, h]
  simp

theorem calc_c4_amended_witness :
    parse trivialTransc "()(" = .error .invalidParens ∧
    parse trivialTransc "1e999" = .error .numberOutOfRange ∧
    run trivialTransc "" [] = .noMatch ∧
    run trivialTransc "   " [] = .noMatch ∧
    run trivialTransc "@" [] = .noMatch :=
  calc_c4_amended trivialTransc "()(" rfl

/-- Claim C5 (counterexample): the claim has the tie-breaking backwards.
For the left-associative chain `"8 - 4 - 2"` the scan selects the
second (rightmost) `-`, at index 6, not the first at index 2; for the
right-associative `"2 ^ 3 ^ 2"` it selects the first (leftmost) `^`, at
index 2, not the second at index 6. -/
theorem calc_c5_counterexample :
    ((find_binary_oper "8 - 4 - 2".toList).map (fun r => (r.1, r.2.symbol)) =
        some (6, "-".toList) ∧
      ((find_binary_oper "8 - 4 - 2".toList).map (fun r => (r.1, r.2.symbol)) =
        some (2, "-".toList)) = False) ∧
    ((find_binary_oper "2 ^ 3 ^ 2".toList).map (fun r => (r.1, r.2.symbol)) =
        some (2, "^".toList) ∧
      ((find_binary_oper "2 ^ 3 ^ 2".toList).map (fun r => (r.1, r.2.symbol)) =
        some (6, "^".toList)) = False) := by
  refine ⟨⟨rfl, eq_false fun h => ?_⟩, rfl, eq_false fun h => ?_⟩
  · rw [show (find_binary_oper "8 - 4 - 2".toList).map
        (fun r => (r.1, r.2.symbol)) = some (6, "-".toList) from rfl] at h
    simp at h
  · rw [show (find_binary_oper "2 ^ 3 ^ 2".toList).map
        (fun r => (r.1, r.2.symbol)) = some (2, "^".toList) from rfl] at h
    simp at h

/-- Claim C5 (amended): among candidate matches of equal precedence, a
left-associative operator's selected split position is the rightmost
such match and a right-associative operator's selected split position is
the leftmost.  Generally: when the scan selects a left-associative
operator, no later examined match compares favourably under the
`Precedence` rule (in particular no later match of the same or lower
precedence value exists when left-associative); when it selects a
right-associative operator, every earlier examined match has a strictly
larger precedence value.  Concretely, `"8 - 4 - 2"` splits at the second
`-` (evaluating to 2) and `"2 ^ 3 ^ 2"` at the first `^` (evaluating
to 512) — the standard associativity semantics for a top-down split. -/
theorem calc_c5_amended (T : Transc) :
    (∀ (t : List Char) (i j : Nat) (op : BinaryOpInfo) (sym : List Char)
      (p : Precedence),
      find_binary_oper t = some (i, op) →
      op.precedence.right_associative = false →
      i < j → SelPos t j → MatchAt t j sym p →
      precLt p op.precedence.value = false) ∧
    (∀ (t : List Char) (i j : Nat) (op : BinaryOpInfo) (sym : List Char)
      (p : Precedence),
      find_binary_oper t = some (i, op) →
      op.precedence.right_associative = true →
      j < i → SelPos t j → MatchAt t j sym p →
      op.precedence.value < p.value) ∧
    (find_binary_oper "8 - 4 - 2".toList).map (fun r => (r.1, r.2.symbol)) =
      some (6, "-".toList) ∧
    (find_binary_oper "2 ^ 3 ^ 2".toList).map (fun r => (r.1, r.2.symbol)) =
      some (2, "^".toList) ∧
    run T "8 - 4 - 2" [] = .success 2 [] ∧
    run T "2 ^ 3 ^ 2" [] = .success 512 [] := by
  refine ⟨?_, ?_, rfl, rfl, rfl, rfl⟩
  · intro t i j op sym p hf _hl hij hS hM
    exact (find_binary_oper_spec t i op hf).2.2.2.1 j sym p hij hS hM
  · intro t i j op sym p hf hr hji hS hM
    exact (find_binary_oper_spec t i op hf).2.2.2.2 hr j sym p hji hS hM

theorem calc_c5_amended_witness :
    precLt (left_associative 40) 20 = false ∧ (30 : Int) < 40 :=
  ⟨(calc_c5_amended trivialTransc).1 "1 + 2 * 3".toList 2 6
      ⟨"+".toList, left_associative 20, some qadd⟩ "*".toList
      (left_associative 40) rfl rfl (by omega)
      ⟨by decide, by decide⟩ ⟨by decide, rfl⟩,
    (calc_c5_amended trivialTransc).2.1 "1 * 2 ^ 3".toList 6 2
      ⟨"^".toList, right_associative 30, some qpow⟩ "*".toList
      (left_associative 40) rfl rfl (by omega)
      ⟨by decide, by decide⟩ ⟨by decide, rfl⟩⟩

/-- Claim C6 (counterexample): `sin` applied to two arguments does not
fail — `func_sin` reads only `args.at(0)` and ignores the rest — so
`eval(parse("sin(1,2)"))` succeeds (here under the all-zero
interpretation of the transcendentals). -/
theorem calc_c6_counterexample :
    run trivialTransc "sin(1,2)" [] = .success 0 [] ∧
    (run trivialTransc "sin(1,2)" [] = .evalFailure .outOfRange) = False := by
  refine ⟨rfl, eq_false fun h => ?_⟩
  rw [show run trivialTransc "sin(1,2)" [] = .success 0 [] from rfl] at h
  exact RunResult.noConfusion h

/-- Claim C6 (amended): evaluating `sin`, `cos` or `sqrt` fails (with
the out-of-range failure of `vector::at(0)`) exactly when the argument
list is empty; with one or more arguments the function is applied to
the first argument and any extra arguments are ignored. -/
theorem calc_c6_amended (T : Transc) :
    run T "sin()" [] = .evalFailure .outOfRange ∧
    run T "cos()" [] = .evalFailure .outOfRange ∧
    run T "sqrt()" [] = .evalFailure .outOfRange ∧
    run T "sin(1,2)" [] = .success (T.sinF 1) [] ∧
    (∀ x rest, func_sin T (x :: rest) = .ok (T.sinF x)) ∧
    (∀ x rest, func_cos T (x :: rest) = .ok (T.cosF x)) ∧
    (∀ x rest, func_sqrt T (x :: rest) = .ok (T.sqrtF x)) ∧
    func_sin T [] = .error .outOfRange ∧
    func_cos T [] = .error .outOfRange ∧
    func_sqrt T [] = .error .outOfRange :=
  ⟨rfl, rfl, rfl, rfl, fun _ _ => rfl, fun _ _ => rfl, fun _ _ => rfl,
    rfl, rfl, rfl⟩

/-- Claim C7 (counterexample): `sum()` does not fail — `func_sum` is
`std::accumulate` from 0.0, so the empty call evaluates to 0. -/
theorem calc_c7_counterexample :
    run trivialTransc "sum()" [] = .success 0 [] ∧
    (run trivialTransc "sum()" [] = .evalFailure .outOfRange) = False := by
  refine ⟨rfl, eq_false fun h => ?_⟩
  rw [show run trivialTransc "sum()" [] = .success 0 [] from rfl] at h
  exact RunResult.noConfusion h

/-- Claim C7 (amended): `sum()` evaluates to 0 (the accumulate
identity); `min()` and `max()` dereference the past-the-end iterator of
an empty vector — undefined behaviour, modelled as the hard failure
`emptyRange`, not a defined arity violation; `sum(1,2,3)` evaluates
to 6. -/
theorem calc_c7_amended (T : Transc) :
    run T "sum()" [] = .success 0 [] ∧
    run T "min()" [] = .evalFailure .emptyRange ∧
    run T "max()" [] = .evalFailure .emptyRange ∧
    run T "sum(1,2,3)" [] = .success 6 [] :=
  ⟨rfl, rfl, rfl, rfl⟩

/-- Claim C8 (counterexample): the expression evaluates to 1, not -1 —
the spec's own candidate list (2, 4, 1, 3) has minimum 1. -/
theorem calc_c8_counterexample :
    run trivialTransc "min(2, 4, 10 - 2 * 4.5, -(7 - 10))" [] =
      .success 1 [] ∧
    (run trivialTransc "min(2, 4, 10 - 2 * 4.5, -(7 - 10))" [] =
      .success (-1) []) = False := by
  refine ⟨rfl, eq_false fun h => ?_⟩
  rw [show run trivialTransc "min(2, 4, 10 - 2 * 4.5, -(7 - 10))" [] =
    .success 1 [] from rfl] at h
  injection h with h1 h2
  exact absurd h1 (by norm_num)

/-- Claim C8 (amended): evaluating
`parse("min(2, 4, 10 - 2 * 4.5, -(7 - 10))")` in any context returns 1
(the candidates are 2, 4, 1, 3) and leaves the context unchanged. -/
theorem calc_c8_amended (T : Transc) (ctx : Ctx) :
    run T "min(2, 4, 10 - 2 * 4.5, -(7 - 10))" ctx = .success 1 ctx :=
  rfl

/-- Claim C9: `simplify_parens` is idempotent, and it never strips an
outer pair whose removal leaves an interior failing `valid_parens`:
whenever the result still begins with `(` and ends with `)`, the strip
it declined has an invalid interior — in particular `"(a)+(b)"` is
returned unchanged. -/
theorem calc_c9_simplify_parens_idempotent :
    (∀ s : List Char, simplify_parens (simplify_parens s) = simplify_parens s) ∧
    (∀ s : List Char, (simplify_parens s).head? = some '(' →
      (simplify_parens s).getLast? = some ')' →
      valid_parens (strip_outer (simplify_parens s)) = false) ∧
    simplify_parens "(a)+(b)".toList = "(a)+(b)".toList := by
  refine ⟨fun s => ?_, fun s => (simplify_parens_isSimplified s).2, rfl⟩
  exact simplify_parens_aux_of_isSimplified (simplify_parens s)
    (simplify_parens_isSimplified s) ((simplify_parens s).length + 1)

theorem calc_c9_simplify_parens_idempotent_witness :
    valid_parens (strip_outer (simplify_parens "(a)+(b)".toList)) = false :=
  calc_c9_simplify_parens_idempotent.2.1 "(a)+(b)".toList rfl rfl

/-- Claim C10: `parse_function` stores the raw result of each argument
parse without a null check, so `parse("sum(1,@)")` succeeds and returns
a function-call node whose second child is absent; evaluating that tree
dereferences the missing child (undefined behaviour in the C++,
`nullChild` in the model). -/
theorem calc_c10_null_argument_child (T : Transc) :
    parse T "sum(1,@)" =
      .ok (some (.func "sum".toList [some (.value 1), none])) ∧
    run T "sum(1,@)" [] = .evalFailure .nullChild :=
  ⟨rfl, rfl⟩

end Calc
